import Mathlib

/-!
Verification of the Bit-Buy-ICP property registry
(`src/bit_buy_icp_backend/src/hashing.rs`).

The Rust canister keeps a process-wide `HashMap<String, Property>` behind a
`RwLock` and exposes four operations: `upload_property`, `get_properties`,
`get_property_by_id`, `delete_property`.  `hash_image` computes the SHA-256
digest of the uploaded bytes (via the `sha2` crate) and renders it as a
lowercase-hex string (via `hex::encode`).

Shallow embedding conventions:
  * a `Vec<u8>` is a `List Nat` of byte values; 32-bit words are `Nat`
    reduced modulo `2 ^ 32` wherever the Rust `u32` arithmetic wraps;
  * the thread-local `RwLock<DecentralizedPlatform>` becomes explicit state
    passing over `RegState`, an association list with the `HashMap`
    semantics (insert overwrites, remove deletes, iteration order is
    implementation-defined in Rust, so a list order is as faithful as any);
  * `ic_cdk::trap` aborts the call and rolls the state back, so
    `upload_property` returns an `Option`; `uploadNext` is the resulting
    state transition (trap leaves the state unchanged);
  * the `sha2` and `hex` crates are embedded by their published algorithms
    (FIPS 180-4 SHA-256; lowercase-hex byte encoding).
-/

/-! ## SHA-256 (the `sha2` crate behind `hash_image`) -/

/-- Truncate to a 32-bit word, the wrap-around of Rust `u32` arithmetic. -/
def w32 (n : Nat) : Nat := n % 4294967296

/-- 32-bit rotate right. -/
def rotr (k n : Nat) : Nat := w32 ((n >>> k) ||| (n <<< (32 - k)))

/-- SHA-256 `Ch` function. -/
def shaCh (x y z : Nat) : Nat := (x &&& y) ^^^ ((x ^^^ 4294967295) &&& z)

/-- SHA-256 `Maj` function. -/
def shaMaj (x y z : Nat) : Nat := (x &&& y) ^^^ (x &&& z) ^^^ (y &&& z)

/-- SHA-256 big Sigma-0. -/
def bigS0 (x : Nat) : Nat := rotr 2 x ^^^ rotr 13 x ^^^ rotr 22 x

/-- SHA-256 big Sigma-1. -/
def bigS1 (x : Nat) : Nat := rotr 6 x ^^^ rotr 11 x ^^^ rotr 25 x

/-- SHA-256 small sigma-0. -/
def smallS0 (x : Nat) : Nat := rotr 7 x ^^^ rotr 18 x ^^^ (x >>> 3)

/-- SHA-256 small sigma-1. -/
def smallS1 (x : Nat) : Nat := rotr 17 x ^^^ rotr 19 x ^^^ (x >>> 10)

/-- The 64 SHA-256 round constants (FIPS 180-4, section 4.2.2). -/
def shaK : List Nat :=
  [1116352408, 1899447441, 3049323471, 3921009573,
   961987163, 1508970993, 2453635748, 2870763221,
   3624381080, 310598401, 607225278, 1426881987,
   1925078388, 2162078206, 2614888103, 3248222580,
   3835390401, 4022224774, 264347078, 604807628,
   770255983, 1249150122, 1555081692, 1996064986,
   2554220882, 2821834349, 2952996808, 3210313671,
   3336571891, 3584528711, 113926993, 338241895,
   666307205, 773529912, 1294757372, 1396182291,
   1695183700, 1986661051, 2177026350, 2456956037,
   2730485921, 2820302411, 3259730800, 3345764771,
   3516065817, 3600352804, 4094571909, 275423344,
   430227734, 506948616, 659060556, 883997877,
   958139571, 1322822218, 1537002063, 1747873779,
   1955562222, 2024104815, 2227730452, 2361852424,
   2428436474, 2756734187, 3204031479, 3329325298]

/-- Big-endian encoding of the 64-bit message length, in bytes. -/
def lenBytes (n : Nat) : List Nat :=
  [(n >>> 56) % 256, (n >>> 48) % 256, (n >>> 40) % 256, (n >>> 32) % 256,
   (n >>> 24) % 256, (n >>> 16) % 256, (n >>> 8) % 256, n % 256]

/-- SHA-256 padding: append `0x80`, zero bytes up to 56 mod 64, then the
bit length, big-endian over 8 bytes. -/
def padMessage (msg : List Nat) : List Nat :=
  let len := msg.length
  let zeros := (119 - len % 64) % 64
  msg ++ (128 :: List.replicate zeros 0) ++ lenBytes (len * 8)

/-- Split a byte list into 64-byte chunks. -/
def toChunks : List Nat → List (List Nat)
  | [] => []
  | b :: rest => ((b :: rest).take 64) :: toChunks ((b :: rest).drop 64)
termination_by l => l.length
decreasing_by
  simp [List.length_drop]
  omega

/-- Pack bytes into big-endian 32-bit words. -/
def packWords : List Nat → List Nat
  | b0 :: b1 :: b2 :: b3 :: rest =>
      w32 ((b0 <<< 24) ||| (b1 <<< 16) ||| (b2 <<< 8) ||| b3) :: packWords rest
  | _ => []

/-- Extend the 16 chunk words to the 64-word message schedule. -/
def msgSchedule (w16 : List Nat) : List Nat :=
  (List.range 48).foldl
    (fun ws _ =>
      let n := ws.length
      ws ++ [w32 (smallS1 (ws.getD (n - 2) 0) + ws.getD (n - 7) 0 +
                  smallS0 (ws.getD (n - 15) 0) + ws.getD (n - 16) 0)])
    w16

/-- The eight SHA-256 working variables / hash state words. -/
structure Hash8 where
  a : Nat
  b : Nat
  c : Nat
  d : Nat
  e : Nat
  f : Nat
  g : Nat
  h : Nat
deriving DecidableEq

/-- SHA-256 initial hash value (FIPS 180-4, section 5.3.3). -/
def initH : Hash8 :=
  ⟨1779033703, 3144134277, 1013904242, 2773480762,
   1359893119, 2600822924, 528734635, 1541459225⟩

/-- One round of the SHA-256 compression loop; `kw` is the pair of the
round constant and the schedule word. -/
def compressStep (st : Hash8) (kw : Nat × Nat) : Hash8 :=
  let t1 := w32 (st.h + bigS1 st.e + shaCh st.e st.f st.g + kw.1 + kw.2)
  let t2 := w32 (bigS0 st.a + shaMaj st.a st.b st.c)
  ⟨w32 (t1 + t2), st.a, st.b, st.c, w32 (st.d + t1), st.e, st.f, st.g⟩

/-- Process one 64-byte chunk: 64 compression rounds, then add into the
running hash, all modulo `2 ^ 32`. -/
def processChunk (st : Hash8) (chunk : List Nat) : Hash8 :=
  let ws := msgSchedule (packWords chunk)
  let r := (shaK.zip ws).foldl compressStep st
  ⟨w32 (st.a + r.a), w32 (st.b + r.b), w32 (st.c + r.c), w32 (st.d + r.d),
   w32 (st.e + r.e), w32 (st.f + r.f), w32 (st.g + r.g), w32 (st.h + r.h)⟩

/-- SHA-256 of a byte sequence, as the eight final hash words. -/
def sha256Words (msg : List Nat) : Hash8 :=
  (toChunks (padMessage msg)).foldl processChunk initH

/-- Big-endian bytes of one 32-bit word. -/
def wordBytes (n : Nat) : List Nat :=
  [(n >>> 24) % 256, (n >>> 16) % 256, (n >>> 8) % 256, n % 256]

/-- SHA-256 digest as its 32-byte sequence. -/
def sha256Bytes (msg : List Nat) : List Nat :=
  let r := sha256Words msg
  wordBytes r.a ++ wordBytes r.b ++ wordBytes r.c ++ wordBytes r.d ++
  wordBytes r.e ++ wordBytes r.f ++ wordBytes r.g ++ wordBytes r.h

/-! ## `hex::encode` -/

/-- The lowercase-hex digit table of `hex::encode`. -/
def hexTable : List Char :=
  "0123456789abcdef".data

/-- Look up one hex digit; the index of `hex::encode` is a nibble, so the
`% 16` never truncates on real inputs. -/
def hexNibble (n : Nat) : Char := hexTable.getD (n % 16) '0'

/-- The two hex characters of one byte: high nibble then low nibble. -/
def byteHexChars (b : Nat) : List Char := [hexNibble (b >>> 4), hexNibble (b &&& 15)]

/-- `hex::encode`: each byte becomes two lowercase hex characters. -/
def hexEncode (bytes : List Nat) : String :=
  String.mk (bytes.flatMap byteHexChars)

/-- `hash_image` (hashing.rs:76-81): SHA-256 of the image bytes, rendered
as a lowercase hexadecimal string. -/
def hash_image (image_data : List Nat) : String :=
  hexEncode (sha256Bytes image_data)

/-! ## Data model (hashing.rs:7-27) -/

/-- `PropertyType` (hashing.rs:7-13): three fixed categories plus an open
`Other` variant carrying a free-form label. -/
inductive PropertyType where
  | RealEstate : PropertyType
  | Car : PropertyType
  | Art : PropertyType
  | Other : String → PropertyType
deriving DecidableEq

/-- `Property` (hashing.rs:15-22). -/
structure Property where
  id : String
  property_type : PropertyType
  image_hash : String
  description : String
  owner : String
deriving DecidableEq

/-- The `properties: HashMap<String, Property>` field of
`DecentralizedPlatform`, embedded as an association list.  `HashMap`
iteration order is implementation-defined, so the list order stands in for
it; the no-duplicate-keys property of `HashMap` is proved as an invariant
of the reachable states below. -/
abbrev RegState := List (String × Property)

/-- `HashMap::insert`: the new binding replaces any binding of the same
key. -/
def mapInsert (k : String) (v : Property) (m : RegState) : RegState :=
  (k, v) :: m.filter (fun p => p.1 ≠ k)

/-- `HashMap::get`: the value bound to `k`, if any. -/
def mapGet (k : String) (m : RegState) : Option Property :=
  (m.find? (fun p => p.1 = k)).map (fun p => p.2)

/-- `HashMap::remove` (its effect on the map). -/
def mapRemove (k : String) (m : RegState) : RegState :=
  m.filter (fun p => p.1 ≠ k)

/-! ## Rust `Debug` rendering of `PropertyType`, used by `get_properties`
via `format!("{:?}", property.property_type)`. -/

/-- Rust `char::escape_debug` as `Debug`-formatting of a `String` applies
it: `\t`, `\n`, `\r`, backslash and the double quote escape to two-byte
sequences; other control characters (and `0x7f`) render as a `\u` escape
with lowercase hex digits between braces; printable characters render as
themselves.  (Rust decides printability of non-ASCII characters by a
Unicode table; this embedding treats them as printable, and no theorem
below depends on characters outside ASCII.) -/
def escapeDebugChar (c : Char) : List Char :=
  if c = '\t' then ['\\', 't']
  else if c = '\n' then ['\\', 'n']
  else if c = '\r' then ['\\', 'r']
  else if c = '\\' then ['\\', '\\']
  else if c = '"' then ['\\', '"']
  else if c.toNat < 32 ∨ c.toNat = 127 then
    ['\\', 'u', '{'] ++ Nat.toDigits 16 c.toNat ++ ['}']
  else [c]

/-- Rust `Debug` for `str`: the escaped characters between double
quotes. -/
def strDebugChars (cs : List Char) : List Char :=
  '"' :: cs.flatMap escapeDebugChar ++ ['"']

/-- The derived `Debug` rendering of `PropertyType` (hashing.rs:7): the
bare variant name, and for `Other` the variant name applied to the
`Debug`-rendered label. -/
def debugFmt : PropertyType → String
  | .RealEstate => "RealEstate"
  | .Car => "Car"
  | .Art => "Art"
  | .Other l => String.mk ("Other(".data ++ strDebugChars l.data ++ ")".data)

/-! ## The four canister operations (hashing.rs:40-112) -/

/-- `upload_property` (hashing.rs:40-73).  `ic_cdk::trap` on empty image
data aborts the call, so the result is an `Option`: `none` for the trap,
otherwise the returned digest together with the new registry state. -/
def upload_property (property_id : String) (property_type : PropertyType)
    (image_data : List Nat) (description : String) (owner : String)
    (st : RegState) : Option (String × RegState) :=
  if image_data.isEmpty then none
  else
    let hash := hash_image image_data
    let property : Property :=
      ⟨property_id, property_type, hash, description, owner⟩
    some (hash, mapInsert property_id property st)

/-- The state transition of `upload_property`: a trap aborts the call and
leaves the canister state unchanged. -/
def uploadNext (property_id : String) (property_type : PropertyType)
    (image_data : List Nat) (description : String) (owner : String)
    (st : RegState) : RegState :=
  match upload_property property_id property_type image_data description owner st with
  | none => st
  | some r => r.2

/-- `get_properties` (hashing.rs:84-94): one `(id, Debug-rendered type,
image hash)` triple per stored record. -/
def get_properties (st : RegState) : List (String × String × String) :=
  st.map (fun p => (p.1, debugFmt p.2.property_type, p.2.image_hash))

/-- `get_property_by_id` (hashing.rs:97-103). -/
def get_property_by_id (property_id : String) (st : RegState) : Option Property :=
  mapGet property_id st

/-- `delete_property` (hashing.rs:106-112): `remove(..).is_some()`
together with the new state. -/
def delete_property (property_id : String) (st : RegState) : Bool × RegState :=
  ((mapGet property_id st).isSome, mapRemove property_id st)

/-! ## Reachable states -/

/-- One externally visible mutating call. -/
inductive Op where
  | upload : String → PropertyType → List Nat → String → String → Op
  | delete : String → Op

/-- Run one call against the registry state. -/
def execOp (st : RegState) : Op → RegState
  | .upload id pt bytes d o => uploadNext id pt bytes d o st
  | .delete id => (delete_property id st).2

/-- Run a call sequence from the empty registry the canister starts
with. -/
def execOps (ops : List Op) : RegState :=
  ops.foldl execOp []

/-- The hex-digit character class of the digest strings. -/
def isLowerHex (c : Char) : Prop :=
  ('0' ≤ c ∧ c ≤ '9') ∨ ('a' ≤ c ∧ c ≤ 'f')

instance decIsLowerHex (c : Char) : Decidable (isLowerHex c) := by
  unfold isLowerHex
  infer_instance

/-- The keys of the registry are pairwise distinct — the `HashMap`
property the association list has to maintain. -/
def keysNodup (st : RegState) : Prop :=
  (st.map Prod.fst).Nodup

/-! ## Helper lemmas -/

theorem hexNibble_mem (n : Nat) : hexNibble n ∈ hexTable := by
  have key : ∀ m : Fin 16, hexTable.getD m.val '0' ∈ hexTable := by decide
  have h : n % 16 < 16 := Nat.mod_lt _ (by norm_num)
  show hexTable.getD (n % 16) '0' ∈ hexTable
  exact key ⟨n % 16, h⟩

theorem hexTable_isLowerHex : ∀ c ∈ hexTable, isLowerHex c := by decide

theorem flatMap_byteHexChars_length (bs : List Nat) :
    (bs.flatMap byteHexChars).length = 2 * bs.length := by
  induction bs with
  | nil => simp
  | cons b rest ih => simp [byteHexChars, ih]; omega

theorem sha256Bytes_length (B : List Nat) : (sha256Bytes B).length = 32 := by
  simp [sha256Bytes, wordBytes]

theorem hash_image_length (B : List Nat) : (hash_image B).length = 64 := by
  show ((sha256Bytes B).flatMap byteHexChars).length = 64
  rw [flatMap_byteHexChars_length, sha256Bytes_length]

theorem hash_image_chars (B : List Nat) :
    ∀ c ∈ (hash_image B).data, isLowerHex c := by
  intro c hc
  have hc2 : c ∈ (sha256Bytes B).flatMap byteHexChars := hc
  rw [List.mem_flatMap] at hc2
  obtain ⟨b, _, hcb⟩ := hc2
  apply hexTable_isLowerHex
  simp only [byteHexChars, List.mem_cons, List.mem_singleton] at hcb
  rcases hcb with h | h | h
  · exact h ▸ hexNibble_mem _
  · exact h ▸ hexNibble_mem _
  · cases h

theorem mapGet_cons (p : String × Property) (m : RegState) (k : String) :
    mapGet k (p :: m) = if p.1 = k then some p.2 else mapGet k m := by
  by_cases h : p.1 = k <;> simp [mapGet, List.find?_cons, h]

theorem mapGet_insert_self (k : String) (v : Property) (m : RegState) :
    mapGet k (mapInsert k v m) = some v := by
  simp [mapInsert, mapGet_cons]

theorem mapGet_remove_self (k : String) (m : RegState) :
    mapGet k (mapRemove k m) = none := by
  have h : (List.filter (fun p => decide (p.1 ≠ k)) m).find?
      (fun p => decide (p.1 = k)) = none := by
    rw [List.find?_eq_none]
    intro p hp
    rcases List.mem_filter.mp hp with ⟨-, hpk⟩
    simpa using hpk
  simp [mapGet, mapRemove, h]

theorem mapRemove_of_get_none (k : String) (m : RegState)
    (h : mapGet k m = none) : mapRemove k m = m := by
  have hf : m.find? (fun p => decide (p.1 = k)) = none := by
    cases hfind : m.find? (fun p => decide (p.1 = k)) with
    | none => rfl
    | some p => simp [mapGet, hfind] at h
  rw [List.find?_eq_none] at hf
  apply List.filter_eq_self.mpr
  intro p hp
  simpa using hf p hp

theorem mapGet_mem {k : String} {rec : Property} {m : RegState}
    (h : mapGet k m = some rec) : (k, rec) ∈ m := by
  cases hfind : m.find? (fun p => decide (p.1 = k)) with
  | none => simp [mapGet, hfind] at h
  | some p =>
      simp only [mapGet, hfind, Option.map_some] at h
      have hmem := List.mem_of_find?_eq_some hfind
      have hkey := List.find?_some hfind
      simp only [decide_eq_true_eq] at hkey
      have hp : p = (k, rec) := by
        cases p
        simp_all
      exact hp ▸ hmem

theorem mem_mapGet {k : String} {rec : Property} {m : RegState}
    (hN : keysNodup m) (h : (k, rec) ∈ m) : mapGet k m = some rec := by
  induction m with
  | nil => cases h
  | cons p rest ih =>
      rcases List.mem_cons.mp h with rfl | hmem
      · simp [mapGet_cons]
      · have hk : k ∈ rest.map Prod.fst :=
          List.mem_map.mpr ⟨(k, rec), hmem, rfl⟩
        have hN2 : keysNodup rest := (List.nodup_cons.mp hN).2
        have hne : p.1 ≠ k := by
          intro hpk
          exact (List.nodup_cons.mp hN).1 (hpk ▸ hk)
        rw [mapGet_cons, if_neg hne]
        exact ih hN2 hmem

theorem foldl_execOp_inv (I : RegState → Prop)
    (hstep : ∀ st op, I st → I (execOp st op)) :
    ∀ (ops : List Op) (st : RegState), I st → I (ops.foldl execOp st) := by
  intro ops
  induction ops with
  | nil => intro st h; exact h
  | cons op rest ih => intro st h; exact ih _ (hstep st op h)

theorem keysNodup_insert (k : String) (v : Property) (m : RegState)
    (h : keysNodup m) : keysNodup (mapInsert k v m) := by
  unfold keysNodup mapInsert
  rw [List.map_cons, List.nodup_cons]
  constructor
  · intro hk
    rcases List.mem_map.mp hk with ⟨p, hp, hpk⟩
    rcases List.mem_filter.mp hp with ⟨-, hne⟩
    simp at hne
    exact hne hpk
  · exact List.Nodup.sublist (List.Sublist.map Prod.fst (List.filter_sublist m)) h

theorem keysNodup_remove (k : String) (m : RegState)
    (h : keysNodup m) : keysNodup (mapRemove k m) :=
  List.Nodup.sublist (List.Sublist.map Prod.fst (List.filter_sublist m)) h

theorem keysNodup_execOp (st : RegState) (op : Op)
    (h : keysNodup st) : keysNodup (execOp st op) := by
  cases op with
  | upload id pt bytes d o =>
      show keysNodup (uploadNext id pt bytes d o st)
      unfold uploadNext upload_property
      cases bytes with
      | nil => exact h
      | cons b rest => exact keysNodup_insert _ _ _ h
  | delete id => exact keysNodup_remove _ _ h

theorem keysNodup_execOps (ops : List Op) : keysNodup (execOps ops) :=
  foldl_execOp_inv keysNodup keysNodup_execOp ops [] List.nodup_nil

/-- Every entry of a reachable registry was written by an upload, so it
has the key as the record id and a digest produced by `hash_image`. -/
theorem mem_execOps_form (ops : List Op) :
    ∀ p ∈ execOps ops, ∃ id pt B d o,
      p = (id, ⟨id, pt, hash_image B, d, o⟩) := by
  have hstep : ∀ st op, (∀ p ∈ st, ∃ id pt B d o,
      p = (id, (⟨id, pt, hash_image B, d, o⟩ : Property))) →
      ∀ p ∈ execOp st op, ∃ id pt B d o,
        p = (id, (⟨id, pt, hash_image B, d, o⟩ : Property)) := by
    intro st op hst p hp
    cases op with
    | upload id pt bytes d o =>
        revert hp
        show p ∈ uploadNext id pt bytes d o st → _
        unfold uploadNext upload_property
        cases bytes with
        | nil => exact fun hp => hst p hp
        | cons b rest =>
            intro hp
            simp only [List.isEmpty_cons] at hp
            rcases List.mem_cons.mp hp with rfl | hmem
            · exact ⟨id, pt, b :: rest, d, o, rfl⟩
            · exact hst p (List.mem_of_mem_filter hmem)
    | delete id => exact hst p (List.mem_of_mem_filter hp)
  exact foldl_execOp_inv _ hstep ops [] (by intro p hp; cases hp)

theorem countP_keys_eq_one {l : List String} {a : String}
    (hN : l.Nodup) (ha : a ∈ l) :
    l.countP (fun k => k = a) = 1 := by
  induction l with
  | nil => cases ha
  | cons b rest ih =>
      rcases List.nodup_cons.mp hN with ⟨hb, hrest⟩
      rcases List.mem_cons.mp ha with rfl | hmem
      · rw [List.countP_cons_of_pos _ _ (by simp)]
        have : rest.countP (fun k => k = a) = 0 := by
          rw [List.countP_eq_zero]
          intro x hx
          simp only [decide_eq_true_eq]
          intro hxa
          exact hb (hxa ▸ hx)
        omega
      · have hba : ¬(b = a) := fun hba => hb (hba ▸ hmem)
        rw [List.countP_cons_of_neg _ _ (by simpa using hba)]
        exact ih hrest hmem

theorem escapeDebugChar_plain (c : Char)
    (h1 : 32 ≤ c.toNat) (h2 : c.toNat ≤ 126)
    (h3 : c ≠ '"') (h4 : c ≠ '\\') :
    escapeDebugChar c = [c] := by
  have ht : c ≠ '\t' := by rintro rfl; exact absurd h1 (by decide)
  have hn : c ≠ '\n' := by rintro rfl; exact absurd h1 (by decide)
  have hr : c ≠ '\r' := by rintro rfl; exact absurd h1 (by decide)
  have hu : ¬(c.toNat < 32 ∨ c.toNat = 127) := by omega
  unfold escapeDebugChar
  rw [if_neg ht, if_neg hn, if_neg hr, if_neg h4, if_neg h3, if_neg hu]

theorem flatMap_escape_plain (cs : List Char)
    (h : ∀ c ∈ cs, 32 ≤ c.toNat ∧ c.toNat ≤ 126 ∧ c ≠ '"' ∧ c ≠ '\\') :
    cs.flatMap escapeDebugChar = cs := by
  induction cs with
  | nil => rfl
  | cons c rest ih =>
      obtain ⟨h1, h2, h3, h4⟩ := h c (List.mem_cons_self c rest)
      rw [List.flatMap_cons, escapeDebugChar_plain c h1 h2 h3 h4,
        ih (fun x hx => h x (List.mem_cons_of_mem c hx)), List.singleton_append]

theorem upload_some (st : RegState) (id : String) (pt : PropertyType)
    (bytes : List Nat) (desc owner : String) (hne : bytes ≠ []) :
    upload_property id pt bytes desc owner st =
      some (hash_image bytes,
        mapInsert id ⟨id, pt, hash_image bytes, desc, owner⟩ st) := by
  cases bytes with
  | nil => cases hne rfl
  | cons b rest => rfl

/-! ## The claims -/

/-- C1: uploading a record with non-empty image bytes returns the digest
`hash_image bytes` and a subsequent `get_property_by_id` on the same id
yields a record whose id, category, description and owner equal the
inserted values and whose stored digest is that same `hash_image bytes`. -/
theorem upload_get_roundtrip (st : RegState) (id : String) (pt : PropertyType)
    (bytes : List Nat) (desc owner : String) (hne : bytes ≠ []) :
    ∃ st2, upload_property id pt bytes desc owner st =
        some (hash_image bytes, st2) ∧
      get_property_by_id id st2 =
        some ⟨id, pt, hash_image bytes, desc, owner⟩ := by
  rw [upload_some st id pt bytes desc owner hne]
  exact ⟨_, rfl, mapGet_insert_self id _ st⟩

/-- Witness for C1: the round trip at a concrete upload. -/
theorem upload_get_roundtrip_witness :
    ∃ st2, upload_property "p1" .RealEstate [1, 2] "lake house" "alice" [] =
        some (hash_image [1, 2], st2) ∧
      get_property_by_id "p1" st2 =
        some ⟨"p1", .RealEstate, hash_image [1, 2], "lake house", "alice"⟩ :=
  upload_get_roundtrip [] "p1" .RealEstate [1, 2] "lake house" "alice"
    (by decide)

/-- C2: uploading with an empty byte sequence traps — no digest is
returned — and the registry is left exactly as it was, under every key. -/
theorem upload_empty_rejected (st : RegState) (id : String)
    (pt : PropertyType) (desc owner : String) :
    upload_property id pt [] desc owner st = none ∧
    uploadNext id pt [] desc owner st = st ∧
    ∀ k, get_property_by_id k (uploadNext id pt [] desc owner st) =
      get_property_by_id k st :=
  ⟨rfl, rfl, fun _ => rfl⟩

/-- C3: a second upload under the same id succeeds with no error and
replaces the record entirely; the subsequent lookup sees only the second
upload's category, digest, description and owner. -/
theorem upload_overwrite (st : RegState) (id : String)
    (pt1 pt2 : PropertyType) (b1 b2 : List Nat) (d1 d2 o1 o2 : String)
    (h1 : b1 ≠ []) (h2 : b2 ≠ []) :
    ∃ st1 st2,
      upload_property id pt1 b1 d1 o1 st = some (hash_image b1, st1) ∧
      upload_property id pt2 b2 d2 o2 st1 = some (hash_image b2, st2) ∧
      get_property_by_id id st2 = some ⟨id, pt2, hash_image b2, d2, o2⟩ :=
  ⟨mapInsert id ⟨id, pt1, hash_image b1, d1, o1⟩ st,
   mapInsert id ⟨id, pt2, hash_image b2, d2, o2⟩
     (mapInsert id ⟨id, pt1, hash_image b1, d1, o1⟩ st),
   upload_some st id pt1 b1 d1 o1 h1,
   upload_some _ id pt2 b2 d2 o2 h2,
   mapGet_insert_self id _ _⟩

/-- Witness for C3: a concrete double upload under one id. -/
theorem upload_overwrite_witness :
    ∃ st1 st2,
      upload_property "p1" .Car [1] "first" "alice" [] =
        some (hash_image [1], st1) ∧
      upload_property "p1" (.Other "boat") [2] "second" "bob" st1 =
        some (hash_image [2], st2) ∧
      get_property_by_id "p1" st2 =
        some ⟨"p1", .Other "boat", hash_image [2], "second", "bob"⟩ :=
  upload_overwrite [] "p1" .Car (.Other "boat") [1] [2] "first" "second"
    "alice" "bob" (by decide) (by decide)

/-- C4: `delete_property` returns whether the key was present, the key is
absent afterwards, and deleting an absent key leaves the map unchanged;
the operation is total. -/
theorem delete_spec (st : RegState) (id : String) :
    (delete_property id st).1 = (get_property_by_id id st).isSome ∧
    get_property_by_id id (delete_property id st).2 = none ∧
    (get_property_by_id id st = none → (delete_property id st).2 = st) :=
  ⟨rfl, mapGet_remove_self id st, fun h => mapRemove_of_get_none id st h⟩

/-- Witness for C4: deleting an absent key from a concrete one-record
registry leaves it unchanged. -/
theorem delete_spec_witness :
    (delete_property "p2" [("p1", ⟨"p1", .Car, "h1", "d", "o"⟩)]).2 =
      [("p1", ⟨"p1", .Car, "h1", "d", "o"⟩)] :=
  (delete_spec [("p1", ⟨"p1", .Car, "h1", "d", "o"⟩)] "p2").2.2 (by decide)

/-- C5: in every reachable state, `get_properties` lists exactly one
triple per present id — the triple carrying that id's stored category
rendering and digest — and every listed triple belongs to a present id. -/
theorem get_properties_complete (ops : List Op) :
    (∀ id rec, get_property_by_id id (execOps ops) = some rec →
       (id, debugFmt rec.property_type, rec.image_hash) ∈
           get_properties (execOps ops) ∧
       (get_properties (execOps ops)).countP (fun t => t.1 = id) = 1) ∧
    (∀ t ∈ get_properties (execOps ops), ∃ rec,
       get_property_by_id t.1 (execOps ops) = some rec ∧
       t.2.1 = debugFmt rec.property_type ∧ t.2.2 = rec.image_hash) := by
  have hN := keysNodup_execOps ops
  constructor
  · intro id rec hget
    have hmem : (id, rec) ∈ execOps ops := mapGet_mem hget
    refine ⟨List.mem_map.mpr ⟨(id, rec), hmem, rfl⟩, ?_⟩
    show ((execOps ops).map
        (fun p => (p.1, debugFmt p.2.property_type, p.2.image_hash))).countP
        (fun t => decide (t.1 = id)) = 1
    rw [List.countP_map]
    have hkeys : (execOps ops).countP (fun p => decide (p.1 = id)) =
        ((execOps ops).map Prod.fst).countP (fun k => decide (k = id)) := by
      rw [List.countP_map]
      rfl
    show (execOps ops).countP (fun p => decide (p.1 = id)) = 1
    rw [hkeys]
    exact countP_keys_eq_one hN (List.mem_map.mpr ⟨(id, rec), hmem, rfl⟩)
  · intro t ht
    rcases List.mem_map.mp ht with ⟨p, hp, rfl⟩
    refine ⟨p.2, ?_, rfl, rfl⟩
    show mapGet p.1 (execOps ops) = some p.2
    exact mem_mapGet hN (by cases p; exact hp)

/-- Witness for C5: the listing of a concrete one-upload history. -/
theorem get_properties_complete_witness :
    ("p1", debugFmt .RealEstate, hash_image [1, 2]) ∈
      get_properties (execOps [.upload "p1" .RealEstate [1, 2] "d" "al"]) ∧
    (get_properties
        (execOps [.upload "p1" .RealEstate [1, 2] "d" "al"])).countP
      (fun t => t.1 = "p1") = 1 :=
  (get_properties_complete [.upload "p1" .RealEstate [1, 2] "d" "al"]).1
    "p1" ⟨"p1", .RealEstate, hash_image [1, 2], "d", "al"⟩ rfl

/-- C6: in every state reachable from the empty registry, each stored
record's `id` field equals the key it is stored under. -/
theorem stored_id_eq_key (ops : List Op) :
    ∀ p ∈ execOps ops, p.2.id = p.1 := by
  intro p hp
  obtain ⟨id, pt, B, d, o, rfl⟩ := mem_execOps_form ops p hp
  rfl

/-- Witness for C6: the invariant at a concrete reachable entry. -/
theorem stored_id_eq_key_witness :
    (("p1", (⟨"p1", .Car, hash_image [1], "d", "o"⟩ : Property)) :
        String × Property).2.id = "p1" :=
  stored_id_eq_key [.upload "p1" .Car [1] "d" "o"] _ (List.Mem.head _)

/-- C7: the digest is a pure function of the bytes — two computations on
the same bytes agree, and the digest returned by `upload_property` does
not depend on the registry state the call runs against. -/
theorem hash_image_pure (B : List Nat) (st1 st2 : RegState) (id : String)
    (pt : PropertyType) (d o : String) :
    hash_image B = hash_image B ∧
    Option.map Prod.fst (upload_property id pt B d o st1) =
      Option.map Prod.fst (upload_property id pt B d o st2) := by
  refine ⟨rfl, ?_⟩
  cases B with
  | nil => rfl
  | cons b rest => rfl

/-- C8: every digest is a string of exactly 64 lowercase hexadecimal
characters, and so is the `image_hash` of every stored record in every
reachable state. -/
theorem hash_image_hex64 (B : List Nat) :
    (hash_image B).length = 64 ∧
    (∀ c ∈ (hash_image B).data, isLowerHex c) ∧
    ∀ ops : List Op, ∀ p ∈ execOps ops,
      p.2.image_hash.length = 64 ∧ ∀ c ∈ p.2.image_hash.data, isLowerHex c := by
  refine ⟨hash_image_length B, hash_image_chars B, ?_⟩
  intro ops p hp
  obtain ⟨id, pt, B2, d, o, rfl⟩ := mem_execOps_form ops p hp
  exact ⟨hash_image_length B2, hash_image_chars B2⟩

/-- Witness for C8: the digest shape of a concrete stored record. -/
theorem hash_image_hex64_witness :
    ((⟨"p1", .Car, hash_image [7], "d", "o"⟩ : Property).image_hash).length
      = 64 :=
  (((hash_image_hex64 []).2.2) [.upload "p1" .Car [7] "d" "o"]
    ("p1", ⟨"p1", .Car, hash_image [7], "d", "o"⟩) (List.Mem.head _)).1

/-- C9: only the image bytes are validated: with non-empty bytes the
upload succeeds whatever the id, description and owner are; in particular
an empty-string id is accepted and the record is stored under key `""`. -/
theorem upload_ignores_metadata (st : RegState) (id d o : String)
    (pt : PropertyType) (B : List Nat) (hB : B ≠ []) :
    upload_property id pt B d o st =
      some (hash_image B, mapInsert id ⟨id, pt, hash_image B, d, o⟩ st) ∧
    upload_property "" pt B d o st =
      some (hash_image B, mapInsert "" ⟨"", pt, hash_image B, d, o⟩ st) ∧
    get_property_by_id "" (uploadNext "" pt B d o st) =
      some ⟨"", pt, hash_image B, d, o⟩ := by
  refine ⟨upload_some st id pt B d o hB, upload_some st "" pt B d o hB, ?_⟩
  unfold uploadNext
  rw [upload_some st "" pt B d o hB]
  exact mapGet_insert_self "" _ st

/-- Witness for C9: a concrete upload under the empty-string id. -/
theorem upload_ignores_metadata_witness :
    get_property_by_id ""
        (uploadNext "" (.Other "misc") [9] "desc" "own" []) =
      some ⟨"", .Other "misc", hash_image [9], "desc", "own"⟩ :=
  (upload_ignores_metadata [] "x" "desc" "own" (.Other "misc") [9]
    (by decide)).2.2

/-- C10 counterexample: for the label consisting of one newline the
`Debug` rendering escapes, so it is not `Other("label")` and does not
contain the label. -/
theorem debug_other_label_cex :
    debugFmt (.Other "\n") ≠ "Other(\"\n\")" ∧
    ¬ ("\n".data <:+: (debugFmt (.Other "\n")).data) := by
  constructor
  · decide
  · decide

/-- C10 (amended): the fixed variants render as their bare names; for a
label whose characters are printable ASCII other than the double quote
and the backslash, `Other(label)` renders as `Other("label")` — so the
display contains the label — and `get_properties` reports exactly this
rendering for every stored entry. -/
theorem debug_category_display (l : String)
    (hl : ∀ c ∈ l.data, 32 ≤ c.toNat ∧ c.toNat ≤ 126 ∧ c ≠ '"' ∧ c ≠ '\\') :
    debugFmt .RealEstate = "RealEstate" ∧ debugFmt .Car = "Car" ∧
    debugFmt .Art = "Art" ∧
    debugFmt (.Other l) = "Other(\"" ++ l ++ "\")" ∧
    (l.data <:+: (debugFmt (.Other l)).data) ∧
    ∀ (st : RegState), ∀ p ∈ st,
      (p.1, debugFmt p.2.property_type, p.2.image_hash) ∈ get_properties st := by
  have hfmt : debugFmt (.Other l) = "Other(\"" ++ l ++ "\")" := by
    apply String.ext
    show "Other(".data ++ strDebugChars l.data ++ ")".data = _
    rw [String.data_append, String.data_append]
    unfold strDebugChars
    rw [flatMap_escape_plain l.data hl]
    simp
  refine ⟨rfl, rfl, rfl, hfmt, ?_, ?_⟩
  · refine ⟨"Other(\"".data, "\")".data, ?_⟩
    rw [hfmt, String.data_append, String.data_append, List.append_assoc]
  · intro st p hp
    exact List.mem_map.mpr ⟨p, hp, rfl⟩

/-- Witness for C10 (amended) at a concrete plain label. -/
theorem debug_category_display_witness :
    debugFmt (.Other "boat") = "Other(\"boat\")" :=
  (debug_category_display "boat" (by decide)).2.2.2.1
